import Mathlib

/-!
Verification of the NXGEN map-overlay preprocessing and visibility engine.

The definitions below are a shallow embedding of the TypeScript source
(`src/unnamed/part_001`, the most recent revision).  JavaScript numbers are
modelled as rationals (ℚ), JavaScript strings as Lean `String`
(`List Char` where character-level reasoning is needed), `undefined`/absent
values as `Option`, JS `Map` objects as association lists in insertion
order (or lookup functions where only `get` is used), and JS `Set` objects
as `Finset` (the code only uses `has`, `size` and sorted serialization,
all order-independent).
-/

namespace NXGen

/-- A longitude/latitude coordinate pair (`[lng, lat]` in the source). -/
def Position : Type := ℚ × ℚ

instance : DecidableEq Position := by
  unfold Position
  infer_instance

/-- Models `coordinates.join(',')`: the two numbers rendered and joined by a
comma.  The numeric rendering itself (`toString`) is only ever used as an
opaque injection in the claims, so the default rational rendering stands in
for the JavaScript float rendering. -/
def posStr (p : Position) : String := toString p.1 ++ "," ++ toString p.2

/-- The pin groups (`PointType` union type in the source). -/
inductive PointType
  | YELLOW_GROUP
  | PURPLE_GROUP
  | ORANGE_GROUP
  | GREEN_GROUP
  | RED_GROUP
  | TURQUOISE_GROUP
  | VIOLET_GROUP
  | BLUE_GROUP
  | PINK_GROUP
  | WHITE_GROUP
  | OKC_GROUP
  | MAGENTA_GROUP
  | GREY_GROUP
  deriving DecidableEq, Fintype

/-- The string literal each `PointType` value denotes in the source. -/
def pointTypeStr : PointType → String
  | .YELLOW_GROUP => "YELLOW_GROUP"
  | .PURPLE_GROUP => "PURPLE_GROUP"
  | .ORANGE_GROUP => "ORANGE_GROUP"
  | .GREEN_GROUP => "GREEN_GROUP"
  | .RED_GROUP => "RED_GROUP"
  | .TURQUOISE_GROUP => "TURQUOISE_GROUP"
  | .VIOLET_GROUP => "VIOLET_GROUP"
  | .BLUE_GROUP => "BLUE_GROUP"
  | .PINK_GROUP => "PINK_GROUP"
  | .WHITE_GROUP => "WHITE_GROUP"
  | .OKC_GROUP => "OKC_GROUP"
  | .MAGENTA_GROUP => "MAGENTA_GROUP"
  | .GREY_GROUP => "GREY_GROUP"

/-- First-match association-list lookup, the model of reading one key out of
a JS object literal or `Map`. -/
def alookup {β : Type} (k : String) : List (String × β) → Option β
  | [] => none
  | e :: rest => if e.1 = k then some e.2 else alookup k rest

/-- Apply `f` to the value of every entry whose key is `k` (the in-place
`Map` mutation of an existing entry, expressed functionally). -/
def updateEntry {β : Type} (k : String) (f : β → β) (m : List (String × β)) :
    List (String × β) :=
  m.map (fun e => if e.1 = k then (e.1, f e.2) else e)

/-- `PinLogic.PIN_LOOKUP_MAP`, entry for entry (including the preserved
"Site A/B/C under a WHITE_GROUP comment map to ORANGE_GROUP" data quirk). -/
def pinLookupMap : List (String × PointType) :=
  [("sb", .VIOLET_GROUP), ("Ship", .VIOLET_GROUP),
   ("Point 13", .YELLOW_GROUP), ("E6-1", .YELLOW_GROUP), ("E6-2", .YELLOW_GROUP),
   ("Point 6", .YELLOW_GROUP), ("E6-3", .YELLOW_GROUP), ("E6-4", .YELLOW_GROUP),
   ("E6-5", .YELLOW_GROUP), ("E6-6", .YELLOW_GROUP), ("E6-7", .YELLOW_GROUP),
   ("E6-8", .YELLOW_GROUP),
   ("Support Team", .PURPLE_GROUP), ("B", .PURPLE_GROUP),
   ("Bale HFCGS", .GREEN_GROUP), ("M", .GREEN_GROUP), ("NE", .GREEN_GROUP),
   ("FOB1", .RED_GROUP), ("FOB2", .RED_GROUP),
   ("PENT", .TURQUOISE_GROUP), ("COS", .TURQUOISE_GROUP), ("TB", .TURQUOISE_GROUP),
   ("RR", .TURQUOISE_GROUP), ("AZ", .TURQUOISE_GROUP), ("IP", .TURQUOISE_GROUP),
   ("SAN", .PINK_GROUP), ("SBL", .PINK_GROUP), ("LUL", .PINK_GROUP),
   ("Site A", .ORANGE_GROUP), ("Site B", .ORANGE_GROUP), ("Site C", .ORANGE_GROUP),
   ("Cutler", .WHITE_GROUP), ("Grindavik", .WHITE_GROUP), ("Awase", .WHITE_GROUP),
   ("Harold E. Holt", .WHITE_GROUP), ("Aguada", .WHITE_GROUP), ("Wahiawa", .WHITE_GROUP),
   ("Naples", .WHITE_GROUP), ("Dixon", .WHITE_GROUP), ("Jim Creek", .WHITE_GROUP),
   ("La Moure", .WHITE_GROUP), ("Norfolk", .WHITE_GROUP), ("Yokosuka", .WHITE_GROUP),
   ("H_AK", .MAGENTA_GROUP), ("Beale HFCGS", .MAGENTA_GROUP), ("E", .MAGENTA_GROUP),
   ("LRT1", .GREY_GROUP), ("LRT2", .GREY_GROUP), ("LRT3", .GREY_GROUP),
   ("MOB", .OKC_GROUP)]

/-- A point feature.  `name` is the result of `getPointName` (the `name`
property, defaulted to `""` when absent); `geom = some p` models a geometry
of type `'Point'` with coordinates `p`, `geom = none` a missing or
non-`Point` geometry. -/
structure PointFeature where
  name : String
  geom : Option Position
  deriving DecidableEq

/-- `getPinType`: look the point name up in `PIN_LOOKUP_MAP`, defaulting to
`BLUE_GROUP`. -/
def getPinType (p : PointFeature) : PointType :=
  (alookup p.name pinLookupMap).getD .BLUE_GROUP

/-- The value found in a record's `IER` field: either an array (elements
already coerced to strings, as `String(item ?? '')` does) or some
non-array value. -/
inductive IerVal
  | arr (xs : List String)
  | notArr
  deriving DecidableEq

/-- The properties a connection record can carry, each possibly absent.
`fromName`/`toName` hold the `from`/`to` endpoint references, which in this
dataset are point names. -/
structure ConnProps where
  connectionTypeCap : Option String
  connectionTypeLow : Option String
  ier : Option IerVal
  fromName : Option String
  toName : Option String
  deriving DecidableEq

/-- A raw connection record: direct fields plus an optional nested
`properties` object. -/
structure RawConn where
  direct : ConnProps
  properties : Option ConnProps
  deriving DecidableEq

/-- `getProp(d, key) = d?.[key] ?? d?.properties?.[key]`. -/
def getProp {α : Type} (f : ConnProps → Option α) (d : RawConn) : Option α :=
  f d.direct <|> d.properties.bind f

/-- `String.prototype.toUpperCase` (character-wise upper-casing), defined
structurally on the character list. -/
def jsToUpper (s : String) : String := String.mk (s.data.map Char.toUpper)

/-- `String.prototype.trim` (strip leading and trailing whitespace), defined
structurally on the character list. -/
def jsTrim (s : String) : String :=
  String.mk (((s.data.dropWhile Char.isWhitespace).reverse.dropWhile Char.isWhitespace).reverse)

/-- `getConnType`: read `Connection_type` falling back to `connection_type`
(each direct-then-properties), coerce missing to `""`, trim, upper-case,
and map the legacy `"N_TYPE"` spelling to `"N"`. -/
def getConnType (d : RawConn) : String :=
  let t := getProp ConnProps.connectionTypeCap d <|> getProp ConnProps.connectionTypeLow d
  let up := jsToUpper (jsTrim (t.getD ""))
  if up = "N_TYPE" then "N" else up

/-- `getIERArray`: the `IER` field's elements upper-cased when it holds an
array, `[]` otherwise.  Total — the embedding of "never throws". -/
def getIERArray (d : RawConn) : List String :=
  match getProp ConnProps.ier d with
  | some (.arr xs) => xs.map jsToUpper
  | _ => []

/-- `HUB_LNG`. -/
def HUB_LNG : ℚ := -82.492696
/-- `HUB_LAT`. -/
def HUB_LAT : ℚ := 27.8602
/-- `HUB_EPS`. -/
def HUB_EPS : ℚ := 1 / 1000000
/-- `HUB2_LNG`. -/
def HUB2_LNG : ℚ := 9.077841
/-- `HUB2_LAT`. -/
def HUB2_LAT : ℚ := 48.734481

/-- `near(a, b, eps)`: absolute-difference proximity. -/
def near (a b eps : ℚ) : Bool := decide (|a - b| ≤ eps)

/-- `connectsToHub` on a pair of optional endpoint positions (the source
re-wraps `_sourcePos`/`_targetPos`; both must be arrays, else `false`). -/
def connectsToHubPos (s t : Option Position) : Bool :=
  match s, t with
  | some (slng, slat), some (tlng, tlat) =>
      (near slng HUB_LNG HUB_EPS && near slat HUB_LAT HUB_EPS) ||
      (near tlng HUB_LNG HUB_EPS && near tlat HUB_LAT HUB_EPS)
  | _, _ => false

/-- `connectsToHub2` on a pair of optional endpoint positions. -/
def connectsToHub2Pos (s t : Option Position) : Bool :=
  match s, t with
  | some (slng, slat), some (tlng, tlat) =>
      (near slng HUB2_LNG HUB_EPS && near slat HUB2_LAT HUB_EPS) ||
      (near tlng HUB2_LNG HUB_EPS && near tlat HUB2_LAT HUB_EPS)
  | _, _ => false

/-- The synthetic `HUB2` point inserted into the index after the raw points. -/
def hub2Feature : PointFeature := { name := "HUB2", geom := some (HUB2_LNG, HUB2_LAT) }

/-- One `if (name) pointMap.set(name, p)` step of the index-building pass:
points with a falsy (empty) name are skipped, later entries overwrite
earlier ones. -/
def indexStep (m : String → Option PointFeature) (p : PointFeature) :
    String → Option PointFeature :=
  if p.name ≠ "" then (fun n => if n = p.name then some p else m n) else m

/-- The point index: a `Map` built by `set`ting each named point and then
`set`ting the synthetic `"HUB2"` entry.  Modelled as the lookup function of
that `Map`. -/
def buildIndex (pts : List PointFeature) : String → Option PointFeature :=
  let m1 := pts.foldl indexStep (fun _ => none)
  fun n => if n = "HUB2" then some hub2Feature else m1 n

/-- `pointMap.get(getProp(c, key))`: `Map.get undefined` is `undefined`. -/
def lookupName (pm : String → Option PointFeature) (n : Option String) : Option PointFeature :=
  match n with
  | some s => pm s
  | none => none

/-- The `toLng` computed inside the TR filter rule: the resolved target's
longitude, when the target resolves to a `Point` geometry. -/
def toLngOf (pm : String → Option PointFeature) (c : RawConn) : Option ℚ :=
  ((lookupName pm (getProp ConnProps.toName c)).bind PointFeature.geom).map Prod.fst

/-- The connection-level inclusion filter of `preprocessData`: the
domain-specific `TR` rule keyed on source names `'Ohio Pin'` / `'FOB1'` and
the `-90` longitude threshold; every other connection is kept. -/
def trKeep (pm : String → Option PointFeature) (c : RawConn) : Bool :=
  if getConnType c = "TR" then
    let fromName := getProp ConnProps.fromName c
    match toLngOf pm c with
    | none => true
    | some toLng =>
      if fromName = some "Ohio Pin" then decide (toLng > -90)
      else if fromName = some "FOB1" then decide (toLng < -90)
      else true
  else true

/-- A resolved connection as produced by the `.map` step of
`preprocessData`: the original record plus the derived fields attached
there. -/
structure Resolved where
  orig : RawConn
  fromF : Option PointFeature
  toF : Option PointFeature
  sourcePos : Option Position
  targetPos : Option Position
  connType : String
  ierTypes : List String
  sourcePinType : PointType
  targetPinType : PointType
  isHub1 : Bool
  isHub2 : Bool
  deriving DecidableEq

/-- The `.map` body of the connection pipeline in `preprocessData`. -/
def resolveConn (pm : String → Option PointFeature) (c : RawConn) : Resolved :=
  let fromPoint := lookupName pm (getProp ConnProps.fromName c)
  let toPoint := lookupName pm (getProp ConnProps.toName c)
  { orig := c
    fromF := fromPoint
    toF := toPoint
    sourcePos := fromPoint.bind PointFeature.geom
    targetPos := toPoint.bind PointFeature.geom
    connType := getConnType c
    ierTypes := getIERArray c
    sourcePinType := match fromPoint with | some p => getPinType p | none => .BLUE_GROUP
    targetPinType := match toPoint with | some p => getPinType p | none => .BLUE_GROUP
    isHub1 := connectsToHubPos (fromPoint.bind PointFeature.geom) (toPoint.bind PointFeature.geom)
    isHub2 := connectsToHub2Pos (fromPoint.bind PointFeature.geom) (toPoint.bind PointFeature.geom) }

/-- The connection pipeline of `preprocessData`: build the point index,
apply the inclusion filter, resolve, and drop records with a missing
endpoint position (`c._sourcePos && c._targetPos`; positions are arrays, so
JS truthiness is `isSome`). -/
def preprocessConnections (pts : List PointFeature) (conns : List RawConn) : List Resolved :=
  let pm := buildIndex pts
  ((conns.filter (trKeep pm)).map (resolveConn pm)).filter
    (fun r => r.sourcePos.isSome && r.targetPos.isSome)

/-- The mutable filter state of the visibility engine: the three active
sets (JS `Set`s, used only through order-independent operations, hence
`Finset`) and the five boolean toggles. -/
@[ext]
structure FilterState where
  activeTypes : Finset String
  activePointTypes : Finset PointType
  activeIerTypes : Finset String
  hideHubConnections : Bool
  hideHub2Connections : Bool
  showAggregatedConnections : Bool
  showConnectionLabels : Bool
  showPinLabels : Bool
  deriving DecidableEq

/-- The boolean heart of `getConnectionFilterValue` in `buildLayers`:
category active, hub suppressions, both endpoint pin types active, and the
IER clause (empty IER filter set means no IER filtering). -/
def connVisible (fs : FilterState) (d : Resolved) : Bool :=
  decide (d.connType ∈ fs.activeTypes) &&
  (!fs.hideHubConnections || !d.isHub1) &&
  (!fs.hideHub2Connections || !d.isHub2) &&
  decide (d.sourcePinType ∈ fs.activePointTypes) &&
  decide (d.targetPinType ∈ fs.activePointTypes) &&
  (decide (fs.activeIerTypes = ∅) || d.ierTypes.any (fun t => decide (t ∈ fs.activeIerTypes)))

/-- `getConnectionFilterValue`: `1` when visible, `0` otherwise. -/
def getConnectionFilterValue (fs : FilterState) (d : Resolved) : ℕ :=
  if connVisible fs d then 1 else 0

/-- The grouping key of `pinsByLocation`: `p.geometry.coordinates.join(',')`.
(The source would throw on a record with no geometry; that path is never
exercised by the claims, which concern points carrying coordinates.) -/
def pinKey (p : PointFeature) : String :=
  match p.geom with
  | some pos => posStr pos
  | none => ""

/-- One step of building `pinsByLocation`: `Map.set(coords, [])` when the
key is new, then `get(coords).push(p)`. -/
def groupStep (m : List (String × List PointFeature)) (p : PointFeature) :
    List (String × List PointFeature) :=
  let k := pinKey p
  let m1 := if (alookup k m).isSome then m else m ++ [(k, [])]
  updateEntry k (fun ps => ps ++ [p]) m1

/-- `pinsByLocation`: points grouped by exact coordinate-string equality, as
an association list in first-seen key order with members in source order. -/
def pinsByLocation (pins : List PointFeature) : List (String × List PointFeature) :=
  pins.foldl groupStep []

/-- `offsetRadius`, the fixed label-offset radius for overlapping pins. -/
def offsetRadius : ℚ := 45

/-- The label-offset angles (degrees) assigned to the members of a group of
`n` overlapping pins: member `i` gets
`midAngle = -90 + i*sliceAngle + sliceAngle/2` with `sliceAngle = 360/n`.
The source converts each angle to a Cartesian pixel offset through
`cos`/`sin`; the claims concern the radius and the angles, which is where
the arithmetic content lives, so the embedding stays polar. -/
def labelAngles (n : ℕ) : List ℚ :=
  (List.range n).map
    (fun (i : ℕ) => -90 + (i : ℚ) * (360 / (n : ℚ)) + (360 / (n : ℚ)) / 2)

/-- The angles assigned to one co-location group: only groups with more than
one member receive offsets (`if (pinGroup.count > 1)`). -/
def groupLabelAngles (ps : List PointFeature) : List ℚ :=
  if 1 < ps.length then labelAngles ps.length else []

/-- A resolved connection as consumed by the aggregation pass: both endpoint
positions are present (the records reaching this pass passed the
`_sourcePos && _targetPos` filter). -/
structure RConn where
  fromF : Option PointFeature
  toF : Option PointFeature
  posS : Position
  posT : Position
  connType : String
  ierTypes : List String
  srcPin : PointType
  tgtPin : PointType
  isHub1 : Bool
  isHub2 : Bool
  deriving DecidableEq

/-- `[a, b].sort()` for two strings under the default (lexicographic)
comparator. -/
def sortPair (a b : String) : List String := if a ≤ b then [a, b] else [b, a]

/-- `Array.prototype.join(sep)`. -/
def joinS (sep : String) : List String → String
  | [] => ""
  | [a] => a
  | a :: b :: r => a ++ sep ++ joinS sep (b :: r)

/-- The canonical aggregation key: the two endpoint coordinate strings,
sorted lexicographically and joined with `'|'`. -/
def aggKey (c : RConn) : String := joinS "|" (sortPair (posStr c.posS) (posStr c.posT))

/-- `Set.add` on a JS `Set` modelled as an insertion-ordered duplicate-free
list. -/
def setAdd (l : List String) (x : String) : List String := if x ∈ l then l else l ++ [x]

/-- The per-key accumulator of the aggregation `Map`. -/
structure AggAcc where
  fromF : Option PointFeature
  toF : Option PointFeature
  posS : Position
  posT : Position
  connTypes : List String
  ierTypes : List String
  count : ℕ
  srcPin : PointType
  tgtPin : PointType
  isHub1 : Bool
  isHub2 : Bool
  deriving DecidableEq

/-- The accumulator installed when a key is first seen: endpoint references,
positions and pin types of the first member; empty category/IER sets; zero
count; hub flags `false` (to be OR-ed). -/
def initAcc (c : RConn) : AggAcc :=
  { fromF := c.fromF, toF := c.toF, posS := c.posS, posT := c.posT,
    connTypes := [], ierTypes := [], count := 0,
    srcPin := c.srcPin, tgtPin := c.tgtPin, isHub1 := false, isHub2 := false }

/-- The unconditional per-member update: add the member's category and IER
tags to the sets, bump the count, OR the hub flags. -/
def updAcc (a : AggAcc) (c : RConn) : AggAcc :=
  { a with connTypes := setAdd a.connTypes c.connType,
           ierTypes := c.ierTypes.foldl setAdd a.ierTypes,
           count := a.count + 1,
           isHub1 := a.isHub1 || c.isHub1,
           isHub2 := a.isHub2 || c.isHub2 }

/-- One step of the aggregation pass over `processedConnections`. -/
def aggStep (m : List (String × AggAcc)) (c : RConn) : List (String × AggAcc) :=
  let k := aggKey c
  let m1 := if (alookup k m).isSome then m else m ++ [(k, initAcc c)]
  updateEntry k (fun a => updAcc a c) m1

/-- The aggregation `Map` after the full pass, in key-insertion order. -/
def aggregateMap (l : List RConn) : List (String × AggAcc) := l.foldl aggStep []

/-- `aggregatedConnections = Array.from(map.values())` (the final shape
conversion from `Set`s to arrays is the identity here, the sets already
being insertion-ordered lists). -/
def aggregate (l : List RConn) : List AggAcc := (aggregateMap l).map Prod.snd

/-- `aggregatedConnectionsLayer.getFilterValue`, boolean part: any member
category active, hub suppressions, the first member's endpoint pin types
active, and the IER clause. -/
def aggVisible (fs : FilterState) (a : AggAcc) : Bool :=
  a.connTypes.any (fun t => decide (t ∈ fs.activeTypes)) &&
  (!fs.hideHubConnections || !a.isHub1) &&
  (!fs.hideHub2Connections || !a.isHub2) &&
  decide (a.srcPin ∈ fs.activePointTypes) &&
  decide (a.tgtPin ∈ fs.activePointTypes) &&
  (decide (fs.activeIerTypes = ∅) || a.ierTypes.any (fun t => decide (t ∈ fs.activeIerTypes)))

/-- `Array.prototype.join(sep)` at the character level, for the key
serialization proofs. -/
def joinSep (sep : Char) : List (List Char) → List Char
  | [] => []
  | [a] => a
  | a :: b :: r => a ++ sep :: joinSep sep (b :: r)

/-- `Array.from(set).sort()`: the set's elements as a lexicographically
sorted list. -/
def sortedStrings (s : Finset String) : List String := s.sort (· ≤ ·)

/-- `Array.from(set).sort().join(",")`, character level. -/
def setFieldChars (s : Finset String) : List Char :=
  joinSep ',' ((sortedStrings s).map String.data)

/-- A `label:${flag ? 1 : 0}` fragment, character level. -/
def flagChars (label : String) (b : Bool) : List Char :=
  label.data ++ [if b then '1' else '0']

/-- The characters of `filterKey()`: the six `"|"`-joined fragments plus
the two appended label-flag fragments (appending `"|x"` to a `"|"`-join is
the `"|"`-join with one more field). -/
def filterKeyChars (s : FilterState) : List Char :=
  joinSep '|'
    [setFieldChars s.activeTypes,
     flagChars "hub1:" s.hideHubConnections,
     flagChars "hub2:" s.hideHub2Connections,
     setFieldChars (s.activePointTypes.image pointTypeStr),
     setFieldChars s.activeIerTypes,
     flagChars "aggregated:" s.showAggregatedConnections,
     flagChars "connLabels:" s.showConnectionLabels,
     flagChars "pinLabels:" s.showPinLabels]

/-- `filterKey()`: the cache-invalidation key for the current filter state. -/
def filterKey (s : FilterState) : String := String.mk (filterKeyChars s)

/-- The connection-category checkbox keys (`connItems`), the values the UI
can place into `activeTypes`. -/
def connItemKeys : Finset String :=
  {"N", "C", "RT", "HF", "TR", "SAT", "HF L", "U L", "SL"}

/-- The IER checkbox keys (`ierItems`), the values the UI can place into
`activeIerTypes`. -/
def ierItemKeys : Finset String :=
  {"LOCATION", "LOGISTICS", "NRP", "SIT", "MESSAGE", "DEFAULT"}

/-- Two resolved connections agreeing in everything the claims C10 fixes:
endpoint coordinates, category, IER tags, and both hub flags — the
endpoint references and pin groups are left free. -/
def baseAgree (c1 c2 : RConn) : Prop :=
  c1.posS = c2.posS ∧ c1.posT = c2.posT ∧ c1.connType = c2.connType ∧
  c1.ierTypes = c2.ierTypes ∧ c1.isHub1 = c2.isHub1 ∧ c1.isHub2 = c2.isHub2

/-- Two resolved-connection lists agree on every member that is the first
occurrence of its aggregation key (`seen` carries the keys of earlier
members). -/
def FirstAgree : List RConn → List RConn → List String → Prop
  | [], [], _ => True
  | c1 :: t1, c2 :: t2, seen =>
      (aggKey c1 ∉ seen → c1 = c2) ∧ FirstAgree t1 t2 (aggKey c1 :: seen)
  | _, _, _ => False

/-! Concrete sample data used by the witness theorems. -/

/-- A sample point named `"Ohio Pin"` at longitude `-85`. -/
def samplePointOhio : PointFeature := { name := "Ohio Pin", geom := some (-85, 40) }

/-- A sample point east of the `-90` threshold. -/
def samplePointEast : PointFeature := { name := "East", geom := some (-80, 40) }

/-- A sample point west of the `-90` threshold. -/
def samplePointWest : PointFeature := { name := "West", geom := some (-100, 40) }

/-- A small sample point collection. -/
def samplePoints : List PointFeature := [samplePointOhio, samplePointEast, samplePointWest]

/-- A connection-properties bag carrying only a type and two endpoint names. -/
def sampleProps (cap fromN toN : Option String) : ConnProps :=
  { connectionTypeCap := cap, connectionTypeLow := none, ier := none,
    fromName := fromN, toName := toN }

/-- A `TR` connection from `"Ohio Pin"` to the eastern sample point. -/
def sampleConnTREast : RawConn :=
  { direct := sampleProps (some "TR") (some "Ohio Pin") (some "East"), properties := none }

/-- A `TR` connection from `"Ohio Pin"` to the western sample point. -/
def sampleConnTRWest : RawConn :=
  { direct := sampleProps (some "TR") (some "Ohio Pin") (some "West"), properties := none }

/-- An `N` connection from `"Ohio Pin"` to the eastern sample point. -/
def sampleConnN : RawConn :=
  { direct := sampleProps (some "N") (some "Ohio Pin") (some "East"), properties := none }

/-- A raw record whose `Connection_type` is the legacy `"N_TYPE"` spelling. -/
def sampleConnNTYPE : RawConn :=
  { direct := sampleProps (some "N_TYPE") none none, properties := none }

/-- The resolution of `sampleConnN` against the sample index. -/
def sampleResolved : Resolved := resolveConn (buildIndex samplePoints) sampleConnN

/-- A resolved `N`-category connection carrying no IER tags, both endpoints
in the default group, touching no hub. -/
def sampleVisResolved : Resolved :=
  { orig := { direct := sampleProps (some "N") none none, properties := none },
    fromF := none, toF := none, sourcePos := none, targetPos := none,
    connType := "N", ierTypes := [], sourcePinType := .BLUE_GROUP,
    targetPinType := .BLUE_GROUP, isHub1 := false, isHub2 := false }

/-- A filter state with category `N` and group `BLUE_GROUP` active and no
IER filtering. -/
def sampleFilterS : FilterState :=
  { activeTypes := {"N"}, activePointTypes := {.BLUE_GROUP}, activeIerTypes := ∅,
    hideHubConnections := false, hideHub2Connections := false,
    showAggregatedConnections := false, showConnectionLabels := false,
    showPinLabels := false }

/-- `sampleFilterS` with the IER filter `LOCATION` additionally enabled. -/
def sampleFilterSp : FilterState := { sampleFilterS with activeIerTypes := {"LOCATION"} }

/-- `sampleFilterS` with category `C` additionally enabled. -/
def sampleFilterBig : FilterState := { sampleFilterS with activeTypes := {"N", "C"} }

/-- A resolved connection recorded from `(0,0)` to `(1,1)` with category
`N`. -/
def sampleConnAB : RConn :=
  { fromF := none, toF := none, posS := (0, 0), posT := (1, 1), connType := "N",
    ierTypes := [], srcPin := .BLUE_GROUP, tgtPin := .BLUE_GROUP,
    isHub1 := false, isHub2 := false }

/-- The same edge recorded in the opposite direction, `(1,1)` to `(0,0)`,
with category `C`. -/
def sampleConnBA : RConn :=
  { fromF := none, toF := none, posS := (1, 1), posT := (0, 0), connType := "C",
    ierTypes := [], srcPin := .BLUE_GROUP, tgtPin := .BLUE_GROUP,
    isHub1 := false, isHub2 := false }

/-- `sampleConnBA` with a different (non-first-member) source pin group. -/
def sampleConnBA2 : RConn := { sampleConnBA with srcPin := .RED_GROUP }

/-- A sample pin at coordinates `(3, 4)`. -/
def samplePinA : PointFeature := { name := "A", geom := some (3, 4) }

/-- A second, distinct sample pin at the same coordinates `(3, 4)`. -/
def samplePinB : PointFeature := { name := "B", geom := some (3, 4) }

/-! Helper lemmas shared by several claims. -/

/-- Dissect membership in the preprocessing output: every output record is
the resolution of some input connection and carries two defined positions. -/
theorem mem_preprocess_elim (pts : List PointFeature) (conns : List RawConn)
    (r : Resolved) (hr : r ∈ preprocessConnections pts conns) :
    ∃ c, c ∈ conns ∧ r = resolveConn (buildIndex pts) c ∧
      r.sourcePos.isSome = true ∧ r.targetPos.isSome = true := by
  unfold preprocessConnections at hr
  rw [List.mem_filter] at hr
  obtain ⟨hmem, hpos⟩ := hr
  rw [List.mem_map] at hmem
  obtain ⟨c, hc, hrc⟩ := hmem
  rw [Bool.and_eq_true] at hpos
  exact ⟨c, List.mem_of_mem_filter hc, hrc.symm, hpos.1, hpos.2⟩

/-- The index-building fold never creates an entry for the empty name. -/
theorem indexFold_empty_name (pts : List PointFeature)
    (m : String → Option PointFeature) (h : m "" = none) :
    (pts.foldl indexStep m) "" = none := by
  induction pts generalizing m with
  | nil => exact h
  | cons p t ih =>
      rw [List.foldl_cons]
      apply ih
      unfold indexStep
      by_cases hp : p.name = ""
      · simp [hp, h]
      · simp [hp, h, Ne.symm hp]

/-- Lookup distributes over list append. -/
theorem alookup_append {β : Type} (k : String) (m1 m2 : List (String × β)) :
    alookup k (m1 ++ m2) = (alookup k m1 <|> alookup k m2) := by
  induction m1 with
  | nil => simp [alookup]
  | cons e t ih =>
      rw [List.cons_append]
      by_cases h : e.1 = k
      · simp [alookup, h]
      · simp [alookup, h, ih]

/-- Lookup after updating every entry whose key is `k` by `f`. -/
theorem alookup_updateEntry {β : Type} (k q : String) (f : β → β) (m : List (String × β)) :
    alookup q (updateEntry k f m) =
      (if q = k then (alookup k m).map f else alookup q m) := by
  unfold updateEntry
  induction m with
  | nil => by_cases h : q = k <;> simp [alookup, h]
  | cons e t ih =>
      simp only [List.map_cons]
      by_cases hek : e.1 = k
      · rw [if_pos hek]
        by_cases hqk : q = k
        · rw [if_pos hqk]
          simp only [alookup]
          have heq : e.1 = q := hek.trans hqk.symm
          rw [if_pos heq, if_pos hek]
          rfl
        · rw [if_neg hqk]
          simp only [alookup]
          have hne : ¬ (e.1 = q) := fun h => hqk ((h.symm.trans hek))
          rw [if_neg hne, if_neg hne, ih, if_neg hqk]
      · rw [if_neg hek]
        simp only [alookup]
        by_cases heq : e.1 = q
        · have hqk : ¬ (q = k) := fun h => hek (heq.trans h)
          rw [if_pos heq, if_neg hqk]
          rw [if_pos heq]
        · rw [if_neg heq, ih]
          by_cases hqk : q = k
          · rw [if_pos hqk, if_pos hqk]
            rw [if_neg hek]
          · rw [if_neg hqk, if_neg hqk]
            rw [if_neg heq]

/-- A key is absent exactly when lookup fails. -/
theorem alookup_eq_none_iff {β : Type} (k : String) (m : List (String × β)) :
    alookup k m = none ↔ k ∉ m.map Prod.fst := by
  induction m with
  | nil => simp [alookup]
  | cons e t ih =>
      by_cases h : e.1 = k
      · simp [alookup, h]
      · simp [alookup, h, ih, Ne.symm h]

/-- A successful lookup exhibits an entry of the list. -/
theorem alookup_mem {β : Type} (k : String) (b : β) (m : List (String × β))
    (h : alookup k m = some b) : (k, b) ∈ m := by
  induction m with
  | nil => exact absurd h (by simp [alookup])
  | cons e t ih =>
      by_cases he : e.1 = k
      · simp only [alookup] at h
        rw [if_pos he] at h
        have hkb : (k, b) = e := by
          rw [← he, ← Option.some_inj.mp h]
        rw [hkb]
        exact List.mem_cons_self _ _
      · simp only [alookup] at h
        rw [if_neg he] at h
        exact List.mem_cons_of_mem _ (ih h)

/-- After one grouping step, the stepped pin is a member of the entry at its
own key. -/
theorem groupStep_mem_self (m : List (String × List PointFeature)) (p : PointFeature) :
    ∃ ps, alookup (pinKey p) (groupStep m p) = some ps ∧ p ∈ ps := by
  simp only [groupStep]
  cases h : alookup (pinKey p) m with
  | some ps0 =>
      refine ⟨ps0 ++ [p], ?_, List.mem_append_right _ (List.mem_singleton_self p)⟩
      simp only [Option.isSome_some, if_true]
      rw [alookup_updateEntry, if_pos rfl, h]
      rfl
  | none =>
      refine ⟨[] ++ [p], ?_, List.mem_append_right _ (List.mem_singleton_self p)⟩
      simp only [Option.isSome_none, Bool.false_eq_true, if_false]
      rw [alookup_updateEntry, if_pos rfl, alookup_append, h]
      simp [alookup]

/-- One grouping step only ever appends to an existing entry. -/
theorem groupStep_preserves (m : List (String × List PointFeature)) (q : PointFeature)
    (k : String) (ps : List PointFeature) (h : alookup k m = some ps) :
    ∃ ps2, alookup k (groupStep m q) = some ps2 ∧ ∀ x ∈ ps, x ∈ ps2 := by
  simp only [groupStep]
  by_cases hk : k = pinKey q
  · cases h2 : alookup (pinKey q) m with
    | some ps0 =>
        refine ⟨ps0 ++ [q], ?_, ?_⟩
        · simp only [Option.isSome_some, if_true]
          rw [alookup_updateEntry, if_pos hk, h2]
          rfl
        · intro x hx
          rw [hk, h2] at h
          exact List.mem_append_left _ (Option.some_inj.mp h ▸ hx)
    | none =>
        rw [hk, h2] at h
        exact absurd h (by simp)
  · cases h2 : alookup (pinKey q) m with
    | some ps0 =>
        refine ⟨ps, ?_, fun x hx => hx⟩
        simp only [Option.isSome_some, if_true]
        rw [alookup_updateEntry, if_neg hk]
        exact h
    | none =>
        refine ⟨ps, ?_, fun x hx => hx⟩
        simp only [Option.isSome_none, Bool.false_eq_true, if_false]
        rw [alookup_updateEntry, if_neg hk, alookup_append, h]
        rfl

/-- Entries only grow across the whole grouping fold. -/
theorem groupFold_preserves (l : List PointFeature) (m : List (String × List PointFeature))
    (k : String) (ps : List PointFeature) (h : alookup k m = some ps) :
    ∃ ps2, alookup k (l.foldl groupStep m) = some ps2 ∧ ∀ x ∈ ps, x ∈ ps2 := by
  induction l generalizing m ps with
  | nil => exact ⟨ps, h, fun x hx => hx⟩
  | cons q t ih =>
      obtain ⟨ps1, h1, hsub1⟩ := groupStep_preserves m q k ps h
      obtain ⟨ps2, h2, hsub2⟩ := ih (groupStep m q) ps1 h1
      exact ⟨ps2, h2, fun x hx => hsub2 x (hsub1 x hx)⟩

/-- Every pin ends up a member of the group at its own key. -/
theorem pin_in_own_group (pins : List PointFeature) (p : PointFeature) (hp : p ∈ pins) :
    ∃ ps, alookup (pinKey p) (pinsByLocation pins) = some ps ∧ p ∈ ps := by
  unfold pinsByLocation
  suffices h : ∀ (l : List PointFeature) (m : List (String × List PointFeature)),
      p ∈ l → ∃ ps, alookup (pinKey p) (l.foldl groupStep m) = some ps ∧ p ∈ ps by
    exact h pins [] hp
  intro l
  induction l with
  | nil => intro m hmem; exact absurd hmem (List.not_mem_nil p)
  | cons q t ih =>
      intro m hmem
      rcases List.mem_cons.mp hmem with hpq | hpt
      · subst hpq
        rw [List.foldl_cons]
        obtain ⟨ps1, h1, hmem1⟩ := groupStep_mem_self m p
        obtain ⟨ps2, h2, hsub⟩ := groupFold_preserves t (groupStep m p) (pinKey p) ps1 h1
        exact ⟨ps2, h2, hsub p hmem1⟩
      · rw [List.foldl_cons]
        exact ih (groupStep m q) hpt

/-- The two-element string sort is order-insensitive. -/
theorem sortPair_comm (a b : String) : sortPair a b = sortPair b a := by
  unfold sortPair
  by_cases hab : a ≤ b
  · by_cases hba : b ≤ a
    · have heq : a = b := le_antisymm hab hba
      rw [heq]
    · rw [if_pos hab, if_neg hba]
  · have hba : b ≤ a := le_of_not_le hab
    rw [if_neg hab, if_pos hba]

/-- Updating entries never changes the key list. -/
theorem updateEntry_keys {β : Type} (k : String) (f : β → β) (m : List (String × β)) :
    (updateEntry k f m).map Prod.fst = m.map Prod.fst := by
  unfold updateEntry
  induction m with
  | nil => rfl
  | cons e t ih =>
      simp only [List.map_cons, ih]
      by_cases h : e.1 = k
      · rw [if_pos h]
      · rw [if_neg h]

/-- The key list after one aggregation step: unchanged for a known key,
extended by the new key otherwise. -/
theorem aggStep_keys (m : List (String × AggAcc)) (c : RConn) :
    (aggStep m c).map Prod.fst =
      (if (alookup (aggKey c) m).isSome then m.map Prod.fst
       else m.map Prod.fst ++ [aggKey c]) := by
  simp only [aggStep]
  cases h : alookup (aggKey c) m with
  | some a =>
      simp only [Option.isSome_some, if_true]
      exact updateEntry_keys _ _ _
  | none =>
      simp only [Option.isSome_none, Bool.false_eq_true, if_false]
      rw [updateEntry_keys]
      simp

/-- Lookup after one aggregation step: the stepped key holds the updated
(possibly fresh) accumulator, every other key is untouched. -/
theorem alookup_aggStep (m : List (String × AggAcc)) (c : RConn) (q : String) :
    alookup q (aggStep m c) =
      (if q = aggKey c then some (updAcc ((alookup (aggKey c) m).getD (initAcc c)) c)
       else alookup q m) := by
  simp only [aggStep]
  cases h : alookup (aggKey c) m with
  | some a =>
      simp only [Option.isSome_some, if_true]
      rw [alookup_updateEntry]
      by_cases hq : q = aggKey c
      · rw [if_pos hq, if_pos hq, h]
        rfl
      · rw [if_neg hq, if_neg hq]
  | none =>
      simp only [Option.isSome_none, Bool.false_eq_true, if_false]
      rw [alookup_updateEntry]
      by_cases hq : q = aggKey c
      · rw [if_pos hq, if_pos hq, alookup_append, h]
        simp only [Option.none_orElse, Option.getD_none]
        simp [alookup]
      · rw [if_neg hq, if_neg hq, alookup_append]
        simp only [alookup]
        have hne : ¬ ((aggKey c, initAcc c).1 = q) := fun hcon => hq (hcon.symm)
        rw [if_neg hne]
        simp

/-- The running invariant of the aggregation fold: keys are duplicate-free
and each accumulator's count is the number of already-processed connections
with that key. -/
theorem aggFold_invariant (l : List RConn) :
    ∀ (m : List (String × AggAcc)) (processed : List RConn),
    (m.map Prod.fst).Nodup →
    (∀ k a, alookup k m = some a →
      a.count = processed.countP (fun c => decide (aggKey c = k))) →
    (∀ k, alookup k m = none →
      processed.countP (fun c => decide (aggKey c = k)) = 0) →
    (((l.foldl aggStep m).map Prod.fst).Nodup ∧
     (∀ k a, alookup k (l.foldl aggStep m) = some a →
       a.count = (processed ++ l).countP (fun c => decide (aggKey c = k))) ∧
     (∀ k, alookup k (l.foldl aggStep m) = none →
       (processed ++ l).countP (fun c => decide (aggKey c = k)) = 0)) := by
  induction l with
  | nil =>
      intro m processed hnd hsome hnone
      rw [List.foldl_nil, List.append_nil]
      exact ⟨hnd, hsome, hnone⟩
  | cons c t ih =>
      intro m processed hnd hsome hnone
      rw [List.foldl_cons]
      have hstep := ih (aggStep m c) (processed ++ [c]) ?_ ?_ ?_
      · have hassoc : processed ++ [c] ++ t = processed ++ c :: t := by simp
        rw [hassoc] at hstep
        exact hstep
      · rw [aggStep_keys]
        cases hma : alookup (aggKey c) m with
        | some a => simpa using hnd
        | none =>
            simp only [Option.isSome_none, Bool.false_eq_true, if_false]
            rw [List.nodup_append]
            refine ⟨hnd, List.nodup_singleton _, ?_⟩
            intro x hx hxs
            rw [List.mem_singleton] at hxs
            rw [hxs] at hx
            exact (alookup_eq_none_iff _ _).mp hma hx
      · intro k a hka
        rw [alookup_aggStep] at hka
        rw [List.countP_append, List.countP_cons, List.countP_nil]
        by_cases hk : k = aggKey c
        · rw [if_pos hk] at hka
          have hpc : decide (aggKey c = k) = true := by
            rw [hk]
            exact decide_eq_true rfl
          rw [hpc, if_pos rfl]
          cases hma : alookup (aggKey c) m with
          | some a0 =>
              rw [hma] at hka
              have ha : a = updAcc a0 c := Option.some_inj.mp hka.symm
              have hc0 := hsome k a0 (by rw [hk]; exact hma)
              rw [ha]
              simp only [updAcc]
              omega
          | none =>
              rw [hma] at hka
              have ha : a = updAcc (initAcc c) c := Option.some_inj.mp hka.symm
              have hc0 := hnone k (by rw [hk]; exact hma)
              rw [ha]
              simp only [updAcc, initAcc]
              omega
        · rw [if_neg hk] at hka
          have hpc : decide (aggKey c = k) = false := by
            refine decide_eq_false (fun hcon => hk hcon.symm)
          rw [hpc, if_neg (by simp)]
          have := hsome k a hka
          omega
      · intro k hka
        rw [alookup_aggStep] at hka
        by_cases hk : k = aggKey c
        · rw [if_pos hk] at hka
          exact absurd hka (by simp)
        · rw [if_neg hk] at hka
          rw [List.countP_append, List.countP_cons, List.countP_nil]
          have hpc : decide (aggKey c = k) = false :=
            decide_eq_false (fun hcon => hk hcon.symm)
          rw [hpc, if_neg (by simp)]
          have := hnone k hka
          omega

/-- The aggregation key only reads the endpoint positions. -/
theorem aggKey_congr (c1 c2 : RConn) (hS : c1.posS = c2.posS) (hT : c1.posT = c2.posT) :
    aggKey c1 = aggKey c2 := by
  unfold aggKey
  rw [hS, hT]

/-- The per-member accumulator update only reads the fields fixed by
`baseAgree`. -/
theorem updAcc_congr (a : AggAcc) (c1 c2 : RConn) (h : baseAgree c1 c2) :
    updAcc a c1 = updAcc a c2 := by
  obtain ⟨_, _, hct, hier, h1, h2⟩ := h
  unfold updAcc
  rw [hct, hier, h1, h2]

/-- The aggregation fold is insensitive to the endpoint references and pin
groups of members whose key was already seen, as long as first occurrences
agree entirely. -/
theorem aggFold_congr (l1 l2 : List RConn) (seen : List String)
    (m : List (String × AggAcc)) (hf : List.Forall₂ baseAgree l1 l2)
    (hfa : FirstAgree l1 l2 seen) (hkeys : ∀ k, k ∈ m.map Prod.fst ↔ k ∈ seen) :
    l1.foldl aggStep m = l2.foldl aggStep m := by
  induction hf generalizing seen m with
  | nil => rfl
  | @cons a b t1 t2 h12 htail ih =>
      simp only [FirstAgree] at hfa
      obtain ⟨hhead, hrest⟩ := hfa
      rw [List.foldl_cons, List.foldl_cons]
      have hkey_ab : aggKey a = aggKey b := aggKey_congr _ _ h12.1 h12.2.1
      by_cases hin : aggKey a ∈ seen
      · have hin_m : aggKey a ∈ m.map Prod.fst := (hkeys _).mpr hin
        have hlook : (alookup (aggKey a) m).isSome = true := by
          cases hl : alookup (aggKey a) m with
          | some x => rfl
          | none => exact absurd hin_m ((alookup_eq_none_iff _ _).mp hl)
        have hstep_eq : aggStep m a = aggStep m b := by
          simp only [aggStep]
          rw [← hkey_ab, if_pos hlook, if_pos hlook]
          have hupd : (fun x => updAcc x a) = (fun x => updAcc x b) :=
            funext (fun x => updAcc_congr x a b h12)
          rw [hupd]
        rw [hstep_eq]
        apply ih (aggKey a :: seen) (aggStep m b) hrest
        intro k
        rw [aggStep_keys, ← hkey_ab]
        rw [if_pos hlook, List.mem_cons]
        constructor
        · intro hk
          exact Or.inr ((hkeys k).mp hk)
        · rintro (hk | hk)
          · rw [hk]
            exact hin_m
          · exact (hkeys k).mpr hk
      · have hab : a = b := hhead hin
        rw [← hab]
        apply ih (aggKey a :: seen) (aggStep m a) hrest
        intro k
        rw [aggStep_keys]
        have hnone : alookup (aggKey a) m = none :=
          (alookup_eq_none_iff _ _).mpr (fun hc => hin ((hkeys _).mp hc))
        rw [hnone]
        simp only [Option.isSome_none, Bool.false_eq_true, if_false]
        rw [List.mem_append, List.mem_singleton, List.mem_cons]
        constructor
        · rintro (hk | hk)
          · exact Or.inr ((hkeys k).mp hk)
          · exact Or.inl hk
        · rintro (hk | hk)
          · exact Or.inr hk
          · exact Or.inl ((hkeys k).mpr hk)

/-- A list containing two different elements has length at least two. -/
theorem two_le_length_of_mem_ne {α : Type} [DecidableEq α] (l : List α) (a b : α)
    (ha : a ∈ l) (hb : b ∈ l) (hne : a ≠ b) : 2 ≤ l.length := by
  have hsub : ({a, b} : Finset α) ⊆ l.toFinset := by
    intro x hx
    rw [Finset.mem_insert, Finset.mem_singleton] at hx
    rw [List.mem_toFinset]
    rcases hx with h | h
    · rw [h]; exact ha
    · rw [h]; exact hb
  have hcard : ({a, b} : Finset α).card = 2 := Finset.card_pair hne
  calc 2 = ({a, b} : Finset α).card := hcard.symm
    _ ≤ l.toFinset.card := Finset.card_le_card hsub
    _ ≤ l.length := List.toFinset_card_le l

/-- If two separator-free prefixes are followed by empty-or-separator-headed
tails and the concatenations agree, the prefixes and tails agree. -/
theorem sepFree_prefix (sep : Char) :
    ∀ (a b x y : List Char), sep ∉ a → sep ∉ b →
    (x = [] ∨ ∃ x2, x = sep :: x2) → (y = [] ∨ ∃ y2, y = sep :: y2) →
    a ++ x = b ++ y → a = b ∧ x = y := by
  intro a
  induction a with
  | nil =>
      intro b x y _ hb hx hy heq
      cases b with
      | nil => exact ⟨rfl, heq⟩
      | cons c b2 =>
          rw [List.nil_append, List.cons_append] at heq
          rcases hx with hx0 | ⟨x2, hx2⟩
          · rw [hx0] at heq
            exact absurd heq.symm (List.cons_ne_nil c (b2 ++ y))
          · rw [hx2] at heq
            have hc : c = sep := (List.cons.injEq _ _ _ _ ▸ heq).1.symm
            exact absurd (hc ▸ List.mem_cons_self c b2) hb
  | cons c a2 ih =>
      intro b x y ha hb hx hy heq
      cases b with
      | nil =>
          rw [List.nil_append, List.cons_append] at heq
          rcases hy with hy0 | ⟨y2, hy2⟩
          · rw [hy0] at heq
            exact absurd heq (List.cons_ne_nil c (a2 ++ x))
          · rw [hy2] at heq
            have hc : c = sep := (List.cons.injEq _ _ _ _ ▸ heq).1
            exact absurd (hc ▸ List.mem_cons_self c a2) ha
      | cons c2 b2 =>
          rw [List.cons_append, List.cons_append] at heq
          have hcc := (List.cons.injEq _ _ _ _ ▸ heq).1
          have htail := (List.cons.injEq _ _ _ _ ▸ heq).2
          have ha2 : sep ∉ a2 := fun hmem => ha (List.mem_cons_of_mem c hmem)
          have hb2 : sep ∉ b2 := fun hmem => hb (List.mem_cons_of_mem c2 hmem)
          obtain ⟨hab, hxy⟩ := ih b2 x y ha2 hb2 hx hy htail
          exact ⟨by rw [hcc, hab], hxy⟩

/-- `joinSep` on a cons, with the tail contribution made explicit. -/
theorem joinSep_cons (sep : Char) (a : List Char) (r : List (List Char)) :
    joinSep sep (a :: r) = a ++ (if r.isEmpty then [] else sep :: joinSep sep r) := by
  cases r with
  | nil => simp [joinSep]
  | cons b t => rfl

/-- The tail contribution of a `joinSep` is empty or separator-headed. -/
theorem joinSep_tail_shape (sep : Char) (r : List (List Char)) :
    (if r.isEmpty then ([] : List Char) else sep :: joinSep sep r) = [] ∨
    ∃ x2, (if r.isEmpty then ([] : List Char) else sep :: joinSep sep r) = sep :: x2 := by
  cases r with
  | nil => exact Or.inl rfl
  | cons b t => exact Or.inr ⟨joinSep sep (b :: t), rfl⟩

/-- `joinSep` is injective on equal-length lists of separator-free
fragments. -/
theorem joinSep_inj_len (sep : Char) :
    ∀ (l1 l2 : List (List Char)), l1.length = l2.length →
    (∀ f ∈ l1, sep ∉ f) → (∀ f ∈ l2, sep ∉ f) →
    joinSep sep l1 = joinSep sep l2 → l1 = l2 := by
  intro l1
  induction l1 with
  | nil =>
      intro l2 hlen _ _ _
      cases l2 with
      | nil => rfl
      | cons b t => exact absurd hlen (by simp)
  | cons a r1 ih =>
      intro l2 hlen h1 h2 heq
      cases l2 with
      | nil => exact absurd hlen (by simp)
      | cons b r2 =>
          rw [joinSep_cons, joinSep_cons] at heq
          have ha : sep ∉ a := h1 a (List.mem_cons_self _ _)
          have hb : sep ∉ b := h2 b (List.mem_cons_self _ _)
          obtain ⟨hab, htails⟩ := sepFree_prefix sep a b _ _ ha hb
            (joinSep_tail_shape sep r1) (joinSep_tail_shape sep r2) heq
          have hlen2 : r1.length = r2.length := by
            rw [List.length_cons, List.length_cons] at hlen
            omega
          cases r1 with
          | nil =>
              cases r2 with
              | nil => rw [hab]
              | cons c t2 => exact absurd hlen2 (by simp)
          | cons c t1 =>
              cases r2 with
              | nil => exact absurd hlen2 (by simp)
              | cons d t2 =>
                  simp only [List.isEmpty_cons, if_neg] at htails
                  have hj : joinSep sep (c :: t1) = joinSep sep (d :: t2) := by
                    have := (List.cons.injEq _ _ _ _ ▸ htails).2
                    exact this
                  have hr := ih (d :: t2) hlen2
                    (fun f hf => h1 f (List.mem_cons_of_mem a hf))
                    (fun f hf => h2 f (List.mem_cons_of_mem b hf))
                    hj
                  rw [hab, hr]

/-- `joinSep` is injective on lists of nonempty separator-free fragments. -/
theorem joinSep_inj_nonempty (sep : Char) :
    ∀ (l1 l2 : List (List Char)),
    (∀ f ∈ l1, f ≠ [] ∧ sep ∉ f) → (∀ f ∈ l2, f ≠ [] ∧ sep ∉ f) →
    joinSep sep l1 = joinSep sep l2 → l1 = l2 := by
  intro l1
  induction l1 with
  | nil =>
      intro l2 _ h2 heq
      cases l2 with
      | nil => rfl
      | cons b t =>
          rw [joinSep_cons] at heq
          have hb : b ≠ [] := (h2 b (List.mem_cons_self _ _)).1
          cases hbval : b with
          | nil => exact absurd hbval hb
          | cons c b2 =>
              rw [hbval, List.cons_append] at heq
              exact absurd heq.symm (List.cons_ne_nil _ _)
  | cons a r1 ih =>
      intro l2 h1 h2 heq
      cases l2 with
      | nil =>
          rw [joinSep_cons] at heq
          have ha : a ≠ [] := (h1 a (List.mem_cons_self _ _)).1
          cases haval : a with
          | nil => exact absurd haval ha
          | cons c a2 =>
              rw [haval, List.cons_append] at heq
              exact absurd heq (List.cons_ne_nil _ _)
      | cons b r2 =>
          rw [joinSep_cons, joinSep_cons] at heq
          have ha : sep ∉ a := (h1 a (List.mem_cons_self _ _)).2
          have hb : sep ∉ b := (h2 b (List.mem_cons_self _ _)).2
          obtain ⟨hab, htails⟩ := sepFree_prefix sep a b _ _ ha hb
            (joinSep_tail_shape sep r1) (joinSep_tail_shape sep r2) heq
          cases r1 with
          | nil =>
              cases r2 with
              | nil => rw [hab]
              | cons d t2 =>
                  simp only [List.isEmpty_nil, if_pos, List.isEmpty_cons, if_neg] at htails
                  exact absurd htails.symm (List.cons_ne_nil _ _)
          | cons c t1 =>
              cases r2 with
              | nil =>
                  simp only [List.isEmpty_nil, if_pos, List.isEmpty_cons, if_neg] at htails
                  exact absurd htails (List.cons_ne_nil _ _)
              | cons d t2 =>
                  simp only [List.isEmpty_cons, if_neg] at htails
                  have hj : joinSep sep (c :: t1) = joinSep sep (d :: t2) := by
                    have := (List.cons.injEq _ _ _ _ ▸ htails).2
                    exact this
                  have hr := ih (d :: t2)
                    (fun f hf => h1 f (List.mem_cons_of_mem a hf))
                    (fun f hf => h2 f (List.mem_cons_of_mem b hf))
                    hj
                  rw [hab, hr]

/-- A character distinct from the separator and absent from every fragment
is absent from the join. -/
theorem not_mem_joinSep (sep c : Char) (hne : c ≠ sep) :
    ∀ (l : List (List Char)), (∀ f ∈ l, c ∉ f) → c ∉ joinSep sep l := by
  intro l
  induction l with
  | nil =>
      intro _
      simp [joinSep]
  | cons a r ih =>
      intro h
      rw [joinSep_cons]
      intro hmem
      rcases List.mem_append.mp hmem with hmem2 | hmem2
      · exact h a (List.mem_cons_self _ _) hmem2
      · cases r with
        | nil => simp at hmem2
        | cons b t =>
            simp only [List.isEmpty_cons, if_neg] at hmem2
            rcases List.mem_cons.mp hmem2 with hcs | hcs
            · exact hne hcs
            · exact ih (fun f hf => h f (List.mem_cons_of_mem a hf)) hcs

/-- The connection-category checkbox keys are nonempty and free of the two
separator characters. -/
theorem connKeys_facts :
    ∀ x ∈ connItemKeys, x.data ≠ [] ∧ (',') ∉ x.data ∧ ('|') ∉ x.data := by
  decide

/-- The IER checkbox keys are nonempty and free of the two separator
characters. -/
theorem ierKeys_facts :
    ∀ x ∈ ierItemKeys, x.data ≠ [] ∧ (',') ∉ x.data ∧ ('|') ∉ x.data := by
  decide

/-- The thirteen pin-group names denote pairwise distinct strings. -/
theorem ptStr_inj : ∀ a b : PointType, pointTypeStr a = pointTypeStr b → a = b := by
  decide

/-- The pin-group names are nonempty and free of the two separator
characters. -/
theorem ptStr_facts : ∀ pt : PointType,
    (pointTypeStr pt).data ≠ [] ∧ (',') ∉ (pointTypeStr pt).data ∧
    ('|') ∉ (pointTypeStr pt).data := by
  decide

/-- The five flag fragments of the filter key contain no `'|'`. -/
theorem flag_facts : ∀ b : Bool,
    ('|') ∉ flagChars "hub1:" b ∧ ('|') ∉ flagChars "hub2:" b ∧
    ('|') ∉ flagChars "aggregated:" b ∧ ('|') ∉ flagChars "connLabels:" b ∧
    ('|') ∉ flagChars "pinLabels:" b := by
  decide

/-- A flag fragment determines its flag. -/
theorem flagChars_inj (label : String) (b1 b2 : Bool)
    (h : flagChars label b1 = flagChars label b2) : b1 = b2 := by
  unfold flagChars at h
  have h2 := List.append_cancel_left h
  cases b1 <;> cases b2 <;> simp_all

/-- A string is determined by its characters. -/
theorem string_data_inj (s t : String) (h : s.data = t.data) : s = t :=
  congrArg String.mk h

/-- Every fragment of a set field is the character list of a set element. -/
theorem mem_setField_elements (s : Finset String) (f : List Char)
    (hf : f ∈ (sortedStrings s).map String.data) : ∃ x ∈ s, f = x.data := by
  rw [List.mem_map] at hf
  obtain ⟨x, hx, hfx⟩ := hf
  rw [sortedStrings] at hx
  exact ⟨x, (Finset.mem_sort _).mp hx, hfx.symm⟩

/-- A set field over pipe-free elements contains no `'|'`. -/
theorem setFieldChars_pipe_free (s : Finset String)
    (hels : ∀ x ∈ s, ('|') ∉ x.data) : ('|') ∉ setFieldChars s := by
  unfold setFieldChars
  apply not_mem_joinSep ',' '|' (by decide)
  intro f hf
  obtain ⟨x, hx, hfx⟩ := mem_setField_elements s f hf
  rw [hfx]
  exact hels x hx

/-- A sorted element list determines its set. -/
theorem sortedStrings_inj (s1 s2 : Finset String)
    (h : sortedStrings s1 = sortedStrings s2) : s1 = s2 := by
  ext a
  unfold sortedStrings at h
  constructor
  · intro ha
    have hmem : a ∈ Finset.sort (fun x1 x2 => x1 ≤ x2) s1 := (Finset.mem_sort _).mpr ha
    rw [h] at hmem
    exact (Finset.mem_sort _).mp hmem
  · intro ha
    have hmem : a ∈ Finset.sort (fun x1 x2 => x1 ≤ x2) s2 := (Finset.mem_sort _).mpr ha
    rw [← h] at hmem
    exact (Finset.mem_sort _).mp hmem

/-- The serialization of a set of nonempty comma-free strings determines
the set. -/
theorem setFieldChars_inj (s1 s2 : Finset String)
    (h1 : ∀ x ∈ s1, x.data ≠ [] ∧ (',') ∉ x.data)
    (h2 : ∀ x ∈ s2, x.data ≠ [] ∧ (',') ∉ x.data)
    (h : setFieldChars s1 = setFieldChars s2) : s1 = s2 := by
  unfold setFieldChars at h
  have hlists := joinSep_inj_nonempty ',' _ _ ?_ ?_ h
  · have hinj : Function.Injective String.data := fun a b hab => string_data_inj a b hab
    exact sortedStrings_inj _ _ (List.map_injective_iff.mpr hinj hlists)
  · intro f hf
    obtain ⟨x, hx, hfx⟩ := mem_setField_elements s1 f hf
    rw [hfx]
    exact h1 x hx
  · intro f hf
    obtain ⟨x, hx, hfx⟩ := mem_setField_elements s2 f hf
    rw [hfx]
    exact h2 x hx

/-- All eight fragments of a vocabulary-respecting filter state's key are
pipe-free. -/
theorem filterKey_fields_pipe_free (s : FilterState)
    (hc : s.activeTypes ⊆ connItemKeys) (hi : s.activeIerTypes ⊆ ierItemKeys) :
    ∀ f ∈ [setFieldChars s.activeTypes,
           flagChars "hub1:" s.hideHubConnections,
           flagChars "hub2:" s.hideHub2Connections,
           setFieldChars (s.activePointTypes.image pointTypeStr),
           setFieldChars s.activeIerTypes,
           flagChars "aggregated:" s.showAggregatedConnections,
           flagChars "connLabels:" s.showConnectionLabels,
           flagChars "pinLabels:" s.showPinLabels], ('|') ∉ f := by
  intro f hf
  simp only [List.mem_cons, List.not_mem_nil, or_false] at hf
  rcases hf with h | h | h | h | h | h | h | h <;> rw [h]
  · exact setFieldChars_pipe_free _ (fun x hx => (connKeys_facts x (hc hx)).2.2)
  · exact (flag_facts _).1
  · exact (flag_facts _).2.1
  · refine setFieldChars_pipe_free _ ?_
    intro x hx
    rw [Finset.mem_image] at hx
    obtain ⟨pt, _, hpt⟩ := hx
    rw [← hpt]
    exact (ptStr_facts pt).2.2
  · exact setFieldChars_pipe_free _ (fun x hx => (ierKeys_facts x (hi hx)).2.2)
  · exact (flag_facts _).2.2.1
  · exact (flag_facts _).2.2.2.1
  · exact (flag_facts _).2.2.2.2

/-! Claim theorems. -/

/-- C1: every record in the resolved-connections output of preprocessing
has both a defined source position and a defined target position, and each
such record is the resolution of some raw input connection; raw connections
whose endpoints do not resolve to coordinates never appear in the output. -/
theorem claim_C1_resolve_output_positions_defined
    (pts : List PointFeature) (conns : List RawConn)
    (r : Resolved) (hr : r ∈ preprocessConnections pts conns) :
    r.sourcePos.isSome = true ∧ r.targetPos.isSome = true ∧
      ∃ c, c ∈ conns ∧ r = resolveConn (buildIndex pts) c := by
  obtain ⟨c, hc, hrc, hs, ht⟩ := mem_preprocess_elim pts conns r hr
  exact ⟨hs, ht, c, hc, hrc⟩

/-- Witness for C1 at a concrete input. -/
theorem claim_C1_resolve_output_positions_defined_witness :
    sampleResolved.sourcePos.isSome = true ∧ sampleResolved.targetPos.isSome = true := by
  have hl : preprocessConnections samplePoints [sampleConnN] = [sampleResolved] := rfl
  have h := claim_C1_resolve_output_positions_defined samplePoints [sampleConnN]
    sampleResolved (by rw [hl]; exact List.mem_singleton_self _)
  exact ⟨h.1, h.2.1⟩

/-- C2 counterexample: enlarging the active-tag (IER) set from empty to
nonempty hides a previously visible tagless connection, although the larger
state contains every active category, group and tag of the smaller state
and the hub-suppression flags agree.  So the visibility predicate is not
monotonic in the filter sets as claimed. -/
theorem claim_C2_visibility_monotonic_counterexample :
    sampleFilterS.activeTypes ⊆ sampleFilterSp.activeTypes ∧
    sampleFilterS.activePointTypes ⊆ sampleFilterSp.activePointTypes ∧
    sampleFilterS.activeIerTypes ⊆ sampleFilterSp.activeIerTypes ∧
    sampleFilterS.hideHubConnections = sampleFilterSp.hideHubConnections ∧
    sampleFilterS.hideHub2Connections = sampleFilterSp.hideHub2Connections ∧
    getConnectionFilterValue sampleFilterS sampleVisResolved = 1 ∧
    getConnectionFilterValue sampleFilterSp sampleVisResolved = 0 := by
  decide

/-- C2 (amended): the visibility predicate is monotonic in the filter sets
provided the active-tag set does not cross from empty (no tag filtering) to
nonempty: if the smaller state's active-tag set being empty forces the
larger one's to be empty too, then enlarging the active category/group/tag
sets with identical hub-suppression flags never hides a visible
connection. -/
theorem claim_C2_visibility_monotonic_amended
    (fs fsp : FilterState) (d : Resolved)
    (hTypes : fs.activeTypes ⊆ fsp.activeTypes)
    (hPins : fs.activePointTypes ⊆ fsp.activePointTypes)
    (hIers : fs.activeIerTypes ⊆ fsp.activeIerTypes)
    (hHub1 : fs.hideHubConnections = fsp.hideHubConnections)
    (hHub2 : fs.hideHub2Connections = fsp.hideHub2Connections)
    (hEmpty : fs.activeIerTypes = ∅ → fsp.activeIerTypes = ∅)
    (hvis : getConnectionFilterValue fs d = 1) :
    getConnectionFilterValue fsp d = 1 := by
  have h1 : connVisible fs d = true := by
    by_cases h : connVisible fs d
    · exact h
    · rw [getConnectionFilterValue, if_neg h] at hvis
      exact absurd hvis (by decide)
  have h2 : connVisible fsp d = true := by
    simp only [connVisible, Bool.and_eq_true, decide_eq_true_eq, Bool.or_eq_true,
      List.any_eq_true] at h1 ⊢
    obtain ⟨⟨⟨⟨⟨hty, hh1⟩, hh2⟩, hsrc⟩, htgt⟩, hier⟩ := h1
    refine ⟨⟨⟨⟨⟨hTypes hty, ?_⟩, ?_⟩, hPins hsrc⟩, hPins htgt⟩, ?_⟩
    · rw [← hHub1]
      exact hh1
    · rw [← hHub2]
      exact hh2
    · rcases hier with hemp | ⟨t, ht, htmem⟩
      · exact Or.inl (hEmpty hemp)
      · exact Or.inr ⟨t, ht, hIers htmem⟩
  rw [getConnectionFilterValue, if_pos h2]

/-- Witness for the amended C2 at concrete filter states. -/
theorem claim_C2_visibility_monotonic_amended_witness :
    getConnectionFilterValue sampleFilterBig sampleVisResolved = 1 :=
  claim_C2_visibility_monotonic_amended sampleFilterS sampleFilterBig sampleVisResolved
    (by decide) (by decide) (by decide) (by decide) (by decide) (fun h => by decide)
    (by decide)

/-- C3: the aggregation key is independent of recording direction (the two
serialized endpoint strings are sorted before joining), the aggregation map
holds exactly one entry per key, each entry's member count equals the
number of resolved connections with that key, and two distinct connections
sharing an unordered endpoint pair make that count at least 2. -/
theorem claim_C3_aggregation (l : List RConn) :
    ((aggregateMap l).map Prod.fst).Nodup ∧
    (∀ c1 c2 : RConn, c1.posS = c2.posT → c1.posT = c2.posS → aggKey c1 = aggKey c2) ∧
    (∀ c ∈ l, ∃ a, alookup (aggKey c) (aggregateMap l) = some a ∧
      a.count = l.countP (fun x => decide (aggKey x = aggKey c))) ∧
    (∀ c1 ∈ l, ∀ c2 ∈ l, c1 ≠ c2 → aggKey c1 = aggKey c2 →
      ∀ a, alookup (aggKey c1) (aggregateMap l) = some a → 2 ≤ a.count) := by
  have hinv := aggFold_invariant l [] [] List.nodup_nil
    (fun k a hka => absurd hka (by simp [alookup]))
    (fun k _ => by simp)
  rw [List.nil_append] at hinv
  obtain ⟨hnd, hsome, hnone⟩ := hinv
  have hmem_some : ∀ c ∈ l, ∃ a, alookup (aggKey c) (aggregateMap l) = some a ∧
      a.count = l.countP (fun x => decide (aggKey x = aggKey c)) := by
    intro c hc
    cases hka : alookup (aggKey c) (aggregateMap l) with
    | some a => exact ⟨a, rfl, hsome (aggKey c) a hka⟩
    | none =>
        have h0 := hnone (aggKey c) hka
        have hpos : 0 < l.countP (fun x => decide (aggKey x = aggKey c)) := by
          rw [List.countP_pos_iff]
          exact ⟨c, hc, decide_eq_true rfl⟩
        omega
  refine ⟨hnd, ?_, hmem_some, ?_⟩
  · intro c1 c2 h1 h2
    unfold aggKey
    rw [h1, h2, sortPair_comm]
  · intro c1 h1 c2 h2 hne hkeys a hka
    have hcount := hsome (aggKey c1) a hka
    have hfil : l.countP (fun x => decide (aggKey x = aggKey c1)) =
        (l.filter (fun x => decide (aggKey x = aggKey c1))).length :=
      (List.countP_eq_length_filter _ _).symm ▸ rfl
    have hm1 : c1 ∈ l.filter (fun x => decide (aggKey x = aggKey c1)) := by
      rw [List.mem_filter]
      exact ⟨h1, decide_eq_true rfl⟩
    have hm2 : c2 ∈ l.filter (fun x => decide (aggKey x = aggKey c1)) := by
      rw [List.mem_filter]
      exact ⟨h2, decide_eq_true hkeys.symm⟩
    have hlen := two_le_length_of_mem_ne _ c1 c2 hm1 hm2 hne
    rw [hcount, List.countP_eq_length_filter]
    exact hlen

/-- Witness for C3: the two oppositely recorded sample connections collapse
into one aggregate with member count 2. -/
theorem claim_C3_aggregation_witness :
    aggKey sampleConnBA = aggKey sampleConnAB ∧
    (∃ a, alookup (aggKey sampleConnAB) (aggregateMap [sampleConnAB, sampleConnBA]) = some a ∧
      a.count = 2) := by
  have hthm := claim_C3_aggregation [sampleConnAB, sampleConnBA]
  have hkeys : aggKey sampleConnBA = aggKey sampleConnAB :=
    hthm.2.1 sampleConnBA sampleConnAB rfl rfl
  refine ⟨hkeys, ?_⟩
  obtain ⟨a, hka, hcount⟩ := hthm.2.2.1 sampleConnAB (List.mem_cons_self _ _)
  refine ⟨a, hka, ?_⟩
  rw [hcount]
  rw [List.countP_cons, List.countP_cons, List.countP_nil]
  rw [decide_eq_true rfl, decide_eq_true hkeys]
  rfl

/-- C4: the filter-state key is a pure, order-independent function of the
filter state (the sets are serialized sorted), evaluating it twice on an
unchanged state yields identical strings, and over the vocabularies the UI
can place in the sets — the nine category checkbox keys and the six IER
checkbox keys; the point-group set is already drawn from the typed
thirteen-value enumeration — any change to any dimension changes the key
(the key function is injective). -/
theorem claim_C4_filter_key_pure_injective (s1 s2 : FilterState)
    (hc1 : s1.activeTypes ⊆ connItemKeys) (hc2 : s2.activeTypes ⊆ connItemKeys)
    (hi1 : s1.activeIerTypes ⊆ ierItemKeys) (hi2 : s2.activeIerTypes ⊆ ierItemKeys) :
    filterKey s1 = filterKey s1 ∧ (s1 ≠ s2 → filterKey s1 ≠ filterKey s2) := by
  refine ⟨rfl, ?_⟩
  intro hne hkeyeq
  apply hne
  have hchars : filterKeyChars s1 = filterKeyChars s2 := congrArg String.data hkeyeq
  unfold filterKeyChars at hchars
  have hfields := joinSep_inj_len '|' _ _ (by rfl)
    (filterKey_fields_pipe_free s1 hc1 hi1) (filterKey_fields_pipe_free s2 hc2 hi2) hchars
  simp only [List.cons.injEq, and_true] at hfields
  obtain ⟨h1, h2, h3, h4, h5, h6, h7, h8⟩ := hfields
  have htypes : s1.activeTypes = s2.activeTypes := by
    refine setFieldChars_inj _ _ ?_ ?_ h1
    · exact fun x hx => ⟨(connKeys_facts x (hc1 hx)).1, (connKeys_facts x (hc1 hx)).2.1⟩
    · exact fun x hx => ⟨(connKeys_facts x (hc2 hx)).1, (connKeys_facts x (hc2 hx)).2.1⟩
  have hpins : s1.activePointTypes = s2.activePointTypes := by
    have himg : s1.activePointTypes.image pointTypeStr =
        s2.activePointTypes.image pointTypeStr := by
      refine setFieldChars_inj _ _ ?_ ?_ h4
      all_goals
        intro x hx
        rw [Finset.mem_image] at hx
        obtain ⟨pt, _, hpt⟩ := hx
        rw [← hpt]
        exact ⟨(ptStr_facts pt).1, (ptStr_facts pt).2.1⟩
    exact Finset.image_injective (fun a b hab => ptStr_inj a b hab) himg
  have hiers : s1.activeIerTypes = s2.activeIerTypes := by
    refine setFieldChars_inj _ _ ?_ ?_ h5
    · exact fun x hx => ⟨(ierKeys_facts x (hi1 hx)).1, (ierKeys_facts x (hi1 hx)).2.1⟩
    · exact fun x hx => ⟨(ierKeys_facts x (hi2 hx)).1, (ierKeys_facts x (hi2 hx)).2.1⟩
  exact FilterState.ext htypes hpins hiers (flagChars_inj _ _ _ h2) (flagChars_inj _ _ _ h3)
    (flagChars_inj _ _ _ h6) (flagChars_inj _ _ _ h7) (flagChars_inj _ _ _ h8)

/-- Witness for C4: an unchanged state keys identically; enabling one more
category changes the key. -/
theorem claim_C4_filter_key_pure_injective_witness :
    filterKey sampleFilterS = filterKey sampleFilterS ∧
    filterKey sampleFilterS ≠ filterKey sampleFilterBig := by
  have h := claim_C4_filter_key_pure_injective sampleFilterS sampleFilterBig
    (by decide) (by decide) (by decide) (by decide)
  exact ⟨h.1, h.2 (by decide)⟩

/-- C5: the domain-specific inclusion rule applies only to `TR` connections
and is anchored to the source names `'Ohio Pin'` / `'FOB1'` and the fixed
longitude threshold `-90`: `'Ohio Pin'` keeps iff the resolved target
longitude exceeds `-90`, `'FOB1'` keeps iff it is below `-90`, an
unresolved target keeps, and every other category or source name keeps. -/
theorem claim_C5_tr_rule (pm : String → Option PointFeature) (c : RawConn) :
    (getConnType c ≠ "TR" → trKeep pm c = true) ∧
    (getConnType c = "TR" → toLngOf pm c = none → trKeep pm c = true) ∧
    (∀ lng : ℚ, getConnType c = "TR" → getProp ConnProps.fromName c = some "Ohio Pin" →
      toLngOf pm c = some lng → (trKeep pm c = true ↔ -90 < lng)) ∧
    (∀ lng : ℚ, getConnType c = "TR" → getProp ConnProps.fromName c = some "FOB1" →
      toLngOf pm c = some lng → (trKeep pm c = true ↔ lng < -90)) ∧
    (getConnType c = "TR" → getProp ConnProps.fromName c ≠ some "Ohio Pin" →
      getProp ConnProps.fromName c ≠ some "FOB1" → trKeep pm c = true) := by
  refine ⟨?_, ?_, ?_, ?_, ?_⟩
  · intro h
    simp [trKeep, h]
  · intro h hto
    simp [trKeep, h, hto]
  · intro lng h hfrom hto
    simp [trKeep, h, hfrom, hto, GT.gt]
  · intro lng h hfrom hto
    have : (some "FOB1" : Option String) ≠ some "Ohio Pin" := by decide
    simp [trKeep, h, hfrom, hto, this]
  · intro h hOhio hFOB
    cases hto : toLngOf pm c with
    | none => simp [trKeep, h, hto]
    | some lng => simp [trKeep, h, hto, hOhio, hFOB]

/-- Witness for C5: the eastern target is kept, the western one dropped. -/
theorem claim_C5_tr_rule_witness :
    trKeep (buildIndex samplePoints) sampleConnTREast = true ∧
    trKeep (buildIndex samplePoints) sampleConnTRWest = false := by
  constructor
  · exact ((claim_C5_tr_rule (buildIndex samplePoints) sampleConnTREast).2.2.1
      (-80) rfl rfl rfl).mpr (by norm_num)
  · have h := ((claim_C5_tr_rule (buildIndex samplePoints) sampleConnTRWest).2.2.1
      (-100) rfl rfl rfl)
    have hneg : ¬ ((-90 : ℚ) < -100) := by norm_num
    exact Bool.eq_false_iff.mpr (fun htr => hneg (h.mp htr))

/-- C6: the connection classifier reads the type field through the accessor
chain (`Connection_type` before `connection_type`, direct before
`properties`), trims and upper-cases it, maps `"N_TYPE"` to `"N"`, returns
the upper-cased value verbatim otherwise, and returns `""` when the field
is missing; a direct `Connection_type` value takes priority. -/
theorem claim_C6_conn_type_classifier (d : RawConn) :
    (∀ s : String,
      (getProp ConnProps.connectionTypeCap d <|> getProp ConnProps.connectionTypeLow d) = some s →
      getConnType d =
        (if jsToUpper (jsTrim s) = "N_TYPE" then "N" else jsToUpper (jsTrim s))) ∧
    ((getProp ConnProps.connectionTypeCap d <|> getProp ConnProps.connectionTypeLow d) = none →
      getConnType d = "") ∧
    (∀ v : String, d.direct.connectionTypeCap = some v →
      getConnType d =
        (if jsToUpper (jsTrim v) = "N_TYPE" then "N" else jsToUpper (jsTrim v))) := by
  refine ⟨?_, ?_, ?_⟩
  · intro s h
    simp [getConnType, h]
  · intro h
    simp only [getConnType, h, Option.getD_none]
    decide
  · intro v h
    have hchain :
        (getProp ConnProps.connectionTypeCap d <|> getProp ConnProps.connectionTypeLow d)
          = some v := by
      simp [getProp, h]
    simp [getConnType, hchain]

/-- Witness for C6: the record carrying raw `"N_TYPE"` classifies to `"N"`,
and a record with no type field classifies to `""`. -/
theorem claim_C6_conn_type_classifier_witness :
    getConnType sampleConnNTYPE = "N" ∧
    getConnType { direct := sampleProps none none none, properties := none } = "" := by
  constructor
  · have h := (claim_C6_conn_type_classifier sampleConnNTYPE).1 "N_TYPE" (by decide)
    rw [h]
    decide
  · exact (claim_C6_conn_type_classifier
      { direct := sampleProps none none none, properties := none }).2.1 (by decide)

/-- C7: co-location grouping by exact coordinate equality puts any two
points with identical coordinates into the same group; a group of `N > 1`
members is assigned exactly `N` label offsets of the fixed radius `45` at
angles `-90 + i*(360/N) + (360/N)/2` degrees, consecutive ones `360/N`
apart; for `N = 2` the two angles are `180` degrees apart; single-member
groups receive no offset. -/
theorem claim_C7_colocation_grouping :
    (∀ (pins : List PointFeature) (p q : PointFeature) (pos : Position),
      p ∈ pins → q ∈ pins → p.geom = some pos → q.geom = some pos →
      ∃ k ps, (k, ps) ∈ pinsByLocation pins ∧ p ∈ ps ∧ q ∈ ps) ∧
    (∀ ps : List PointFeature, 1 < ps.length →
      (groupLabelAngles ps).length = ps.length) ∧
    (∀ (n i : ℕ) (h : i < (labelAngles n).length),
      (labelAngles n).get ⟨i, h⟩ =
        -90 + (i : ℚ) * (360 / (n : ℚ)) + (360 / (n : ℚ)) / 2) ∧
    (∀ (n i : ℕ) (h1 : i + 1 < (labelAngles n).length) (h2 : i < (labelAngles n).length),
      (labelAngles n).get ⟨i + 1, h1⟩ - (labelAngles n).get ⟨i, h2⟩ = 360 / (n : ℚ)) ∧
    ((labelAngles 2).get ⟨1, by rw [labelAngles, List.length_map, List.length_range]; omega⟩ -
      (labelAngles 2).get ⟨0, by rw [labelAngles, List.length_map, List.length_range]; omega⟩
        = 180) ∧
    (∀ ps : List PointFeature, ps.length ≤ 1 → groupLabelAngles ps = []) ∧
    offsetRadius = 45 := by
  have hlen : ∀ n : ℕ, (labelAngles n).length = n := by
    intro n
    rw [labelAngles, List.length_map, List.length_range]
  have hget : ∀ (n i : ℕ) (h : i < (labelAngles n).length),
      (labelAngles n).get ⟨i, h⟩ =
        -90 + (i : ℚ) * (360 / (n : ℚ)) + (360 / (n : ℚ)) / 2 := by
    intro n i h
    simp only [labelAngles, List.get_eq_getElem, List.getElem_map, List.getElem_range]
  refine ⟨?_, ?_, hget, ?_, ?_, ?_, rfl⟩
  · intro pins p q pos hp hq hpgeom hqgeom
    obtain ⟨ps, hlook, hpmem⟩ := pin_in_own_group pins p hp
    obtain ⟨ps2, hlook2, hqmem⟩ := pin_in_own_group pins q hq
    have hkeys : pinKey p = pinKey q := by
      unfold pinKey
      rw [hpgeom, hqgeom]
    rw [hkeys, hlook2] at hlook
    refine ⟨pinKey q, ps2, alookup_mem _ _ _ hlook2, ?_, hqmem⟩
    rw [Option.some_inj.mp hlook]
    exact hpmem
  · intro ps h
    rw [groupLabelAngles, if_pos h, hlen]
  · intro n i h1 h2
    rw [hget, hget]
    push_cast
    ring
  · rw [hget, hget]
    push_cast
    norm_num
  · intro ps h
    rw [groupLabelAngles, if_neg (by omega)]

/-- Witness for C7: two distinct pins at the same coordinates land in one
group. -/
theorem claim_C7_colocation_grouping_witness :
    (∃ k ps, (k, ps) ∈ pinsByLocation [samplePinA, samplePinB] ∧
      samplePinA ∈ ps ∧ samplePinB ∈ ps) ∧
    (groupLabelAngles [samplePinA, samplePinB]).length = 2 := by
  constructor
  · exact claim_C7_colocation_grouping.1 [samplePinA, samplePinB] samplePinA samplePinB
      (3, 4) (List.mem_cons_self _ _)
      (List.mem_cons_of_mem _ (List.mem_singleton_self _)) rfl rfl
  · rw [claim_C7_colocation_grouping.2.1 [samplePinA, samplePinB] (by decide)]
    rfl

/-- C8: the tag-array extractor returns the tag field's elements upper-cased
when the field holds an array, and the empty array for a missing or
non-array value; it is a total function (the embedding of "never throws"). -/
theorem claim_C8_ier_array_total (d : RawConn) :
    (∀ xs : List String, getProp ConnProps.ier d = some (.arr xs) →
      getIERArray d = xs.map jsToUpper) ∧
    (getProp ConnProps.ier d = none → getIERArray d = []) ∧
    (getProp ConnProps.ier d = some .notArr → getIERArray d = []) := by
  refine ⟨?_, ?_, ?_⟩
  · intro xs h
    simp [getIERArray, h]
  · intro h
    simp [getIERArray, h]
  · intro h
    simp [getIERArray, h]

/-- Witness for C8 at concrete records. -/
theorem claim_C8_ier_array_total_witness :
    getIERArray { direct := { connectionTypeCap := none, connectionTypeLow := none,
                              ier := some (.arr ["a", "b"]), fromName := none, toName := none },
                  properties := none } = ["A", "B"] ∧
    getIERArray { direct := sampleProps none none none, properties := none } = [] := by
  constructor
  · have h := (claim_C8_ier_array_total
      { direct := { connectionTypeCap := none, connectionTypeLow := none,
                    ier := some (.arr ["a", "b"]), fromName := none, toName := none },
        properties := none }).1 ["a", "b"] (by decide)
    rw [h]
    decide
  · exact (claim_C8_ier_array_total
      { direct := sampleProps none none none, properties := none }).2.1 (by decide)

/-- C9: the empty string is never a key of the point index, so a connection
whose `from` or `to` reference is the empty string never resolves and never
appears in the preprocessing output (every output record's original
endpoint references are non-empty). -/
theorem claim_C9_empty_name_dropped (pts : List PointFeature) (conns : List RawConn) :
    buildIndex pts "" = none ∧
    ∀ r ∈ preprocessConnections pts conns,
      getProp ConnProps.fromName r.orig ≠ some "" ∧
      getProp ConnProps.toName r.orig ≠ some "" := by
  have hidx : buildIndex pts "" = none := by
    unfold buildIndex
    have h2 : ¬ ("" = "HUB2") := by decide
    simp only [h2, if_false]
    exact indexFold_empty_name pts (fun _ => none) rfl
  refine ⟨hidx, ?_⟩
  intro r hr
  obtain ⟨c, _, hrc, hs, ht⟩ := mem_preprocess_elim pts conns r hr
  have horig : r.orig = c := by rw [hrc]; rfl
  constructor
  · intro hfrom
    have : r.sourcePos = none := by
      rw [hrc]
      simp only [resolveConn]
      rw [← horig, hfrom]
      simp [lookupName, hidx]
    rw [this] at hs
    exact absurd hs (by decide)
  · intro hto
    have : r.targetPos = none := by
      rw [hrc]
      simp only [resolveConn]
      rw [← horig, hto]
      simp [lookupName, hidx]
    rw [this] at ht
    exact absurd ht (by decide)

/-- C10: aggregate endpoint references and pin-group classifications come
solely from the first-seen member of each coordinate key, so two
resolved-connection lists agreeing in order, coordinates, categories, tags
and hub flags — and wholly on first-seen members — yield identical
visibility decisions for every aggregate under every filter state, even if
the endpoint references/groups of non-first members differ. -/
theorem claim_C10_aggregate_first_member (l1 l2 : List RConn)
    (hbase : List.Forall₂ baseAgree l1 l2) (hfirst : FirstAgree l1 l2 []) :
    ∀ fs : FilterState,
      (aggregate l1).map (aggVisible fs) = (aggregate l2).map (aggVisible fs) := by
  have hmap : aggregateMap l1 = aggregateMap l2 :=
    aggFold_congr l1 l2 [] [] hbase hfirst (by simp)
  intro fs
  unfold aggregate
  rw [hmap]

/-- Witness for C10: the second members differ in source pin group, yet the
aggregate visibility decisions coincide. -/
theorem claim_C10_aggregate_first_member_witness :
    (aggregate [sampleConnAB, sampleConnBA]).map (aggVisible sampleFilterS) =
      (aggregate [sampleConnAB, sampleConnBA2]).map (aggVisible sampleFilterS) := by
  have hkey : aggKey sampleConnBA = aggKey sampleConnAB := by
    unfold aggKey
    exact congrArg (joinS "|") (sortPair_comm _ _)
  refine claim_C10_aggregate_first_member _ _ ?_ ?_ sampleFilterS
  · exact List.Forall₂.cons ⟨rfl, rfl, rfl, rfl, rfl, rfl⟩
      (List.Forall₂.cons ⟨rfl, rfl, rfl, rfl, rfl, rfl⟩ List.Forall₂.nil)
  · refine ⟨fun _ => rfl, ?_, trivial⟩
    intro hnot
    exact absurd (List.mem_singleton.mpr hkey) hnot

/-- Witness for C9 at a concrete input. -/
theorem claim_C9_empty_name_dropped_witness :
    buildIndex samplePoints "" = none ∧
    getProp ConnProps.fromName sampleResolved.orig ≠ some "" := by
  refine ⟨(claim_C9_empty_name_dropped samplePoints [sampleConnN]).1, ?_⟩
  have hl : preprocessConnections samplePoints [sampleConnN] = [sampleResolved] := rfl
  exact (((claim_C9_empty_name_dropped samplePoints [sampleConnN]).2
    sampleResolved (by rw [hl]; exact List.mem_singleton_self _))).1

end NXGen
